import Mathlib

/-!
# A shallow embedding of `MerkleTree.py`

This file embeds the single class `MerkleTree` of the repository into Lean and
proves/refutes the specification claims about it.

Modelling conventions:

* The SHA-256 primitive is abstracted as a function `H : String → String`,
  standing for `lambda bs: hashlib.sha256(bs).hexdigest()` applied to the
  UTF-8 bytes of a string.  Every property proved here is independent of the
  concrete digest function, so the theorems are stated for an arbitrary `H`
  (counterexamples instantiate `H` concretely).  Since UTF-8 encoding of
  strings is injective we identify a Python `str` with its encoded bytes and
  let `H` act on `String` directly.
* `hashlib.sha256` in Python 3 accepts bytes but raises
  `TypeError: Strings must be encoded before hashing` when handed a `str`.
  The type `PyHashArg` records whether the argument was encoded, and
  `sha256hexE` reproduces this behaviour.
* Python exceptions are modelled with `Except String`; the string is the
  error message.
* A Python record (`data`) is `PyData`: a `str`, a `dict`, or any other value
  (represented by the text `str(data)` produces for it).  Values of a `dict`
  are represented by the JSON text `json.dumps` would produce for them, so a
  dict is an association list `List (String × String)` in key-insertion
  order.
* `while` loops are rendered as fuel-based structural recursion; the fuel
  used is provably sufficient (`buildLevelsAux_fuel_irrel`), which yields the
  exact loop-unfolding equation `buildLevels_eq`.
-/

namespace MerklePy

section Defs

variable (H : String → String)

/-- A Python value handed to `MerkleTree._hash_data`:
a `str`, a `dict` (association list in key-insertion order, values
represented by their JSON serialization text), or any other value
(represented by its `str(data)` text). -/
inductive PyData where
  | str (s : String)
  | dict (items : List (String × String))
  | other (text : String)
deriving DecidableEq

/-- An argument to `hashlib.sha256`: either `bytes` (here: the string whose
UTF-8 encoding was taken) or an unencoded Python `str`. -/
inductive PyHashArg where
  | bytes (s : String)
  | pystr (s : String)
deriving DecidableEq

/-- `hashlib.sha256(arg).hexdigest()`: succeeds on bytes, raises `TypeError`
on an unencoded `str` (Python 3 behaviour). -/
def sha256hexE : PyHashArg → Except String String
  | .bytes s => .ok (H s)
  | .pystr _ => .error "TypeError: Strings must be encoded before hashing"

/-- The key order `json.dumps(..., sort_keys=True)` sorts a dict's items by:
comparison of the keys. -/
def keyLE (a b : String × String) : Prop := a.1 ≤ b.1

instance : DecidableRel keyLE := fun a b => inferInstanceAs (Decidable (a.1 ≤ b.1))

instance : IsTotal (String × String) keyLE := ⟨fun a b => le_total a.1 b.1⟩

instance : IsTrans (String × String) keyLE := ⟨fun _ _ _ h h' => le_trans h h'⟩

/-- The items of a dict sorted by key, as `sort_keys=True` does. -/
def sortKeys (items : List (String × String)) : List (String × String) :=
  List.insertionSort keyLE items

/-- `json.dumps(d, sort_keys=True)`: serialize the items sorted by key with
the default separators.  Keys are assumed to need no JSON escaping; values are
already represented by their serialization text. -/
def jsonDumps (items : List (String × String)) : String :=
  "\x7b" ++
    String.intercalate ", "
      ((sortKeys items).map fun kv => "\"" ++ kv.1 ++ "\": " ++ kv.2) ++
  "\x7d"

/-- `MerkleTree._hash_data`.  The `dict` branch serializes to a JSON *string*
and passes it to `hashlib.sha256` without encoding it (the source lacks an
`.encode('utf-8')` there), the `str` branch encodes to UTF-8 bytes, and the
fallback branch hashes the UTF-8 bytes of `str(data)`. -/
def hashDataE : PyData → Except String String
  | .dict items => sha256hexE H (.pystr (jsonDumps items))
  | .str s => sha256hexE H (.bytes s)
  | .other t => sha256hexE H (.bytes t)

/-- The list comprehension `[self._hash_data(data) for data in data_list]`:
the first raised exception propagates. -/
def hashList : List PyData → Except String (List String)
  | [] => .ok []
  | d :: ds =>
    match hashDataE H d with
    | .error e => .error e
    | .ok h =>
      match hashList ds with
      | .error e => .error e
      | .ok rest => .ok (h :: rest)

/-- One iteration of the `_build_tree` loop body: hash consecutive pairs of
the current level; an unpaired last element is combined with itself
(`right = current_level[i + 1] if i + 1 < len(current_level) else left`). -/
def buildLevel : List String → List String
  | [] => []
  | [l] => [H (l ++ l)]
  | l :: r :: rest => H (l ++ r) :: buildLevel rest

/-- The `while len(current_level) > 1` loop of `_build_tree`, as fuel-based
recursion.  `buildLevels_eq` below shows the fuel chosen in `buildLevels` is
sufficient, so this is exactly the loop. -/
def buildLevelsAux : Nat → List String → List (List String)
  | 0, _ => []
  | fuel + 1, cur =>
    if 1 < cur.length then
      buildLevel H cur :: buildLevelsAux fuel (buildLevel H cur)
    else []

/-- All levels above the leaves produced by `_build_tree`'s loop. -/
def buildLevels (cur : List String) : List (List String) :=
  buildLevelsAux H cur.length cur

/-- `MerkleTree._build_tree`: `tree = [leaves]`, then the loop appends one
level per iteration until a level of size at most 1 is reached. -/
def buildTree (leaves : List String) : List (List String) :=
  leaves :: buildLevels H leaves

/-- The state of a `MerkleTree` instance: the fields `self.leaves` and
`self.tree`. -/
structure MerkleTree where
  leaves : List String
  tree : List (List String)
deriving DecidableEq

/-- `MerkleTree.__init__`: hash every record, then build the tree. -/
def mkMerkleTree (dataList : List PyData) : Except String MerkleTree :=
  match hashList H dataList with
  | .error e => .error e
  | .ok leaves => .ok ⟨leaves, buildTree H leaves⟩

/-- `MerkleTree.get_root`: `self.tree[-1][0] if self.tree else None`.
`self.tree` is falsy only when it is the empty list; indexing `[0]` into an
empty last level raises `IndexError`. -/
def getRoot (t : MerkleTree) : Except String (Option String) :=
  match t.tree.getLast? with
  | none => .ok none
  | some lastLevel =>
    match lastLevel.head? with
    | none => .error "IndexError: list index out of range"
    | some h => .ok (some h)

/-- One entry of a proof: the dict `{'hash': ..., 'position': ...}`. -/
structure ProofStep where
  hash : String
  position : String
deriving DecidableEq

/-- The loop of `get_proof` over `range(len(self.tree) - 1)`, i.e. over all
levels except the last, carrying the integer index (`index //= 2` at each
level).  A step is appended only when `index ^ 1` is inside the current
level. -/
def getProofAux : List (List String) → Nat → List ProofStep
  | [], _ => []
  | lvl :: rest, index =>
    let sib := index ^^^ 1
    (if sib < lvl.length then
      [⟨lvl.getD sib "", if sib < index then "left" else "right"⟩]
    else []) ++ getProofAux rest (index / 2)

/-- `MerkleTree.get_proof`: raises `IndexError` when
`index < 0 or index >= len(self.leaves)`, otherwise walks the levels below
the root. -/
def getProof (t : MerkleTree) (index : Int) : Except String (List ProofStep) :=
  if index < 0 ∨ (t.leaves.length : Int) ≤ index then
    .error "IndexError: Index out of bounds"
  else
    .ok (getProofAux t.tree.dropLast index.toNat)

/-- One iteration of the `verify_proof` loop: positions `'left'` and
`'right'` combine the running hash with the sibling; any other position
falls through the `if`/`elif` chain and leaves the running hash unchanged.
`_hash_data` on the concatenated `str` is `H` of its UTF-8 bytes. -/
def verifyStep (cur : String) (step : ProofStep) : String :=
  if step.position = "left" then H (step.hash ++ cur)
  else if step.position = "right" then H (cur ++ step.hash)
  else cur

/-- `MerkleTree.verify_proof`: hash the leaf record, fold the proof steps,
compare to the claimed root.  Hashing the record can raise (dict records). -/
def verifyProof (leaf : PyData) (proof : List ProofStep) (root : String) :
    Except String Bool :=
  match hashDataE H leaf with
  | .error e => .error e
  | .ok h => .ok (proof.foldl (verifyStep H) h == root)

/-- `MerkleTree.find_sibling`: raises `IndexError` when
`index < 0 or index >= len(self.leaves)`; otherwise returns
`self.tree[0][index ^ 1]` when `index ^ 1` is inside the leaf level and
`None` when it is not. -/
def findSibling (t : MerkleTree) (index : Int) : Except String (Option String) :=
  if index < 0 ∨ (t.leaves.length : Int) ≤ index then
    .error "IndexError: Index out of bounds"
  else if index.toNat ^^^ 1 < t.leaves.length then
    .ok (some ((t.tree.getD 0 []).getD (index.toNat ^^^ 1) ""))
  else .ok none

/-- The inner loop of `check_integrity` for one `(child, parent)` level pair:
`for i in range(0, len(child), 2)` recomputes each parent from its children
(`combine_hashes` never sees `None` since tree nodes are strings, so it is
`H` of the concatenation) and compares it with `parent[i // 2]`, whose
out-of-range access would raise `IndexError`. -/
def checkPairs : List String → List String → Except String Bool
  | [], _ => .ok true
  | [l], ps =>
    match ps with
    | [] => .error "IndexError: list index out of range"
    | p :: _ => if H (l ++ l) = p then .ok true else .ok false
  | l :: r :: rest, ps =>
    match ps with
    | [] => .error "IndexError: list index out of range"
    | p :: ps' => if H (l ++ r) = p then checkPairs rest ps' else .ok false

/-- The outer loop of `check_integrity`: first `False` (or raised error)
wins, otherwise `True`. -/
def runChecks : List (List String × List String) → Except String Bool
  | [] => .ok true
  | (c, p) :: rest =>
    match checkPairs H c p with
    | .error e => .error e
    | .ok b => if b then runChecks rest else .ok false

/-- `MerkleTree.check_integrity`: iterate `level` over
`range(len(self.tree) - 2, -1, -1)`, i.e. over the adjacent
`(child, parent)` level pairs from the top of the tree downwards. -/
def checkIntegrity (t : MerkleTree) : Except String Bool :=
  runChecks H ((t.tree.zip t.tree.tail).reverse)

/-- `MerkleTree.test_immutability` for a nonnegative `index` (the claims only
concern valid indices; Python's negative-index wraparound is out of scope).
Captures the root, saves `self.leaves[index]` (raising `IndexError` when out
of range), overwrites it with the hash of the new value, rebuilds, captures
the new root, restores the leaf, rebuilds again, and returns the final state
together with the boolean `original_root == updated_root`. -/
def testImmutability (t : MerkleTree) (index : Nat) (newValue : PyData) :
    Except String (MerkleTree × Bool) :=
  match getRoot t with
  | .error e => .error e
  | .ok originalRoot =>
    match t.leaves[index]? with
    | none => .error "IndexError: list index out of range"
    | some originalLeaf =>
      match hashDataE H newValue with
      | .error e => .error e
      | .ok newHash =>
        let leaves1 := t.leaves.set index newHash
        let tree1 := buildTree H leaves1
        match getRoot ⟨leaves1, tree1⟩ with
        | .error e => .error e
        | .ok updatedRoot =>
          let leaves2 := leaves1.set index originalLeaf
          .ok (⟨leaves2, buildTree H leaves2⟩, originalRoot == updatedRoot)

/-- Vocabulary for the amended round-trip claim: the walk of `get_proof`
starting at `index` finds the `index ^ 1` sibling inside every level below
the root (no level on the path duplicates the walked node with itself). -/
def pathComplete : List (List String) → Nat → Bool
  | [], _ => true
  | lvl :: rest, index => decide ((index ^^^ 1) < lvl.length) && pathComplete rest (index / 2)

end Defs

section Lemmas

variable (H : String → String)

/-- Each built level halves the node count, rounding up. -/
theorem buildLevel_length : ∀ lv : List String, (buildLevel H lv).length = (lv.length + 1) / 2
  | [] => by simp [buildLevel]
  | [_] => by simp [buildLevel]
  | _ :: _ :: rest => by simp [buildLevel, buildLevel_length rest]; omega

/-- Any fuel of at least the current level's length runs the
`while len(current_level) > 1` loop to completion. -/
theorem buildLevelsAux_fuel_irrel :
    ∀ (f₁ : Nat) (f₂ : Nat) (cur : List String), cur.length ≤ f₁ → cur.length ≤ f₂ →
      buildLevelsAux H f₁ cur = buildLevelsAux H f₂ cur := by
  intro f₁
  induction f₁ with
  | zero =>
    intro f₂ cur h₁ _
    have hc : cur = [] := List.eq_nil_of_length_eq_zero (by omega)
    subst hc
    cases f₂ <;> simp [buildLevelsAux]
  | succ f₁ ih =>
    intro f₂ cur h₁ h₂
    cases f₂ with
    | zero =>
      have hc : cur = [] := List.eq_nil_of_length_eq_zero (by omega)
      subst hc
      simp [buildLevelsAux]
    | succ f₂ =>
      simp only [buildLevelsAux]
      by_cases h : 1 < cur.length
      · rw [if_pos h, if_pos h]
        have hlen : (buildLevel H cur).length = (cur.length + 1) / 2 := buildLevel_length H cur
        rw [ih f₂ (buildLevel H cur) (by omega) (by omega)]
      · rw [if_neg h, if_neg h]

/-- The exact unfolding of the `_build_tree` loop: one iteration while the
level has at least two nodes, then stop. -/
theorem buildLevels_eq (cur : List String) :
    buildLevels H cur =
      if 1 < cur.length then buildLevel H cur :: buildLevels H (buildLevel H cur)
      else [] := by
  unfold buildLevels
  by_cases h : 1 < cur.length
  · rw [if_pos h]
    obtain ⟨m, hm⟩ : ∃ m, cur.length = m + 1 := ⟨cur.length - 1, by omega⟩
    rw [hm]
    simp only [buildLevelsAux]
    rw [if_pos h]
    congr 1
    exact buildLevelsAux_fuel_irrel H m (buildLevel H cur).length (buildLevel H cur)
      (by rw [buildLevel_length]; omega) le_rfl
  · rw [if_neg h]
    cases hm : cur.length with
    | zero => simp [buildLevelsAux, hm]
    | succ m => simp only [buildLevelsAux, if_neg h]

/-- `index ^ 1` for an even index is the right neighbour. -/
theorem two_mul_xor_one (k : Nat) : 2 * k ^^^ 1 = 2 * k + 1 := by
  have hiff : ((2 * k ^^^ 1) % 2 = 1) ↔ ¬((2 * k % 2 = 1) ↔ (1 % 2 = 1)) :=
    Nat.xor_mod_two_eq_one
  have h2 : 2 * k % 2 = 0 := by omega
  have hm : (2 * k ^^^ 1) % 2 = 1 := by
    rw [hiff, h2]
    decide
  have h12 : (1 : Nat) / 2 = 0 := rfl
  have hd : (2 * k ^^^ 1) / 2 = k := by
    rw [Nat.xor_div_two, h12, Nat.xor_zero]
    omega
  omega

/-- `index ^ 1` for an odd index is the left neighbour. -/
theorem two_mul_add_one_xor_one (k : Nat) : (2 * k + 1) ^^^ 1 = 2 * k := by
  have hiff : (((2 * k + 1) ^^^ 1) % 2 = 1) ↔ ¬(((2 * k + 1) % 2 = 1) ↔ (1 % 2 = 1)) :=
    Nat.xor_mod_two_eq_one
  have h2 : (2 * k + 1) % 2 = 1 := by omega
  have hm : ¬(((2 * k + 1) ^^^ 1) % 2 = 1) := by
    rw [hiff, h2]
    decide
  have h12 : (1 : Nat) / 2 = 0 := rfl
  have hd : ((2 * k + 1) ^^^ 1) / 2 = k := by
    rw [Nat.xor_div_two, h12, Nat.xor_zero]
    omega
  omega

/-- A parent whose two children both exist is the hash of their
concatenation. -/
theorem buildLevel_getD_pair :
    ∀ (lv : List String) (j : Nat), 2 * j + 1 < lv.length →
      (buildLevel H lv).getD j "" = H (lv.getD (2 * j) "" ++ lv.getD (2 * j + 1) "")
  | [], j, h => by simp at h
  | [_], j, h => by simp at h
  | l :: r :: rest, 0, _ => by simp [buildLevel]
  | l :: r :: rest, j + 1, h => by
    have e1 : 2 * (j + 1) = 2 * j + 1 + 1 := by omega
    have e2 : 2 * (j + 1) + 1 = 2 * j + 1 + 1 + 1 := by omega
    rw [e2, e1]
    simp only [buildLevel, List.getD_cons_succ]
    exact buildLevel_getD_pair rest j (by simp at h; omega)

/-- The unpaired last node of an odd-length level is hashed with itself. -/
theorem buildLevel_getD_dup :
    ∀ (lv : List String) (j : Nat), lv.length = 2 * j + 1 →
      (buildLevel H lv).getD j "" = H (lv.getD (2 * j) "" ++ lv.getD (2 * j) "")
  | [], j, h => by simp at h
  | [l], 0, _ => by simp [buildLevel]
  | [l], j + 1, h => by simp at h
  | l :: r :: rest, 0, h => by simp at h
  | l :: r :: rest, j + 1, h => by
    have e1 : 2 * (j + 1) = 2 * j + 1 + 1 := by omega
    rw [e1]
    simp only [buildLevel, List.getD_cons_succ]
    exact buildLevel_getD_dup rest j (by simp at h; omega)

/-- In a built tree every parent level is exactly `buildLevel` of the level
below it. -/
theorem buildTree_adjacent (lv : List String) :
    ∀ cp ∈ (buildTree H lv).zip (buildTree H lv).tail, cp.2 = buildLevel H cp.1 := by
  rw [buildTree, buildLevels_eq]
  by_cases h : 1 < lv.length
  · rw [if_pos h]
    simp only [List.tail_cons, List.zip_cons_cons]
    intro cp hcp
    rcases List.mem_cons.mp hcp with hcp | hcp
    · subst hcp
      rfl
    · exact buildTree_adjacent (buildLevel H lv) cp
        (by simpa only [buildTree, List.tail_cons] using hcp)
  · rw [if_neg h]
    simp
termination_by lv.length
decreasing_by rw [buildLevel_length]; omega

/-- A built tree over nonempty leaves ends in a single-node level. -/
theorem buildTree_last (lv : List String) (h : lv ≠ []) :
    ∃ r, (buildTree H lv).getLast? = some [r] := by
  rw [buildTree, buildLevels_eq]
  by_cases h1 : 1 < lv.length
  · rw [if_pos h1]
    have hne : buildLevel H lv ≠ [] := by
      apply List.ne_nil_of_length_pos
      rw [buildLevel_length]
      omega
    obtain ⟨r, hr⟩ := buildTree_last (buildLevel H lv) hne
    refine ⟨r, ?_⟩
    rw [List.getLast?_cons_cons]
    simpa only [buildTree] using hr
  · rw [if_neg h1]
    have hlen : lv.length = 1 := by
      have := List.length_pos.mpr h
      omega
    obtain ⟨x, hx⟩ := List.length_eq_one.mp hlen
    subst hx
    exact ⟨x, rfl⟩
termination_by lv.length
decreasing_by rw [buildLevel_length]; omega

/-- The integrity loop accepts the level built from a child level. -/
theorem checkPairs_buildLevel : ∀ lv : List String, checkPairs H lv (buildLevel H lv) = .ok true
  | [] => rfl
  | [l] => by simp [buildLevel, checkPairs]
  | l :: r :: rest => by
    simp only [buildLevel, checkPairs]
    rw [if_pos trivial]
    exact checkPairs_buildLevel rest

/-- The outer integrity loop returns `True` when every level pair checks. -/
theorem runChecks_ok (l : List (List String × List String))
    (h : ∀ cp ∈ l, checkPairs H cp.1 cp.2 = .ok true) : runChecks H l = .ok true := by
  induction l with
  | nil => rfl
  | cons cp rest ih =>
    obtain ⟨c, p⟩ := cp
    simp only [runChecks]
    rw [h (c, p) (List.mem_cons_self _ _)]
    exact ih fun cp hcp => h cp (List.mem_cons_of_mem _ hcp)

/-- Hashing the record list preserves its length. -/
theorem hashList_length :
    ∀ (ds : List PyData) (ls : List String), hashList H ds = .ok ls → ls.length = ds.length
  | [], ls, h => by
    simp only [hashList, Except.ok.injEq] at h
    simp [← h]
  | d :: ds, ls, h => by
    simp only [hashList] at h
    cases hd : hashDataE H d with
    | error e => simp [hd] at h
    | ok x =>
      rw [hd] at h
      cases hr : hashList H ds with
      | error e => rw [hr] at h; simp at h
      | ok rest =>
        rw [hr] at h
        simp only [Except.ok.injEq] at h
        subst h
        simp [hashList_length ds rest hr]

/-- Each leaf hash is the hash of the record at the same position. -/
theorem hashList_getD :
    ∀ (ds : List PyData) (ls : List String), hashList H ds = .ok ls →
      ∀ j, j < ds.length → hashDataE H (ds.getD j (.str "")) = .ok (ls.getD j "")
  | [], _, _, j, hj => by simp at hj
  | d :: ds, ls, h, j, hj => by
    simp only [hashList] at h
    cases hd : hashDataE H d with
    | error e => simp [hd] at h
    | ok x =>
      rw [hd] at h
      cases hr : hashList H ds with
      | error e => rw [hr] at h; simp at h
      | ok rest =>
        rw [hr] at h
        simp only [Except.ok.injEq] at h
        subst h
        cases j with
        | zero => simpa using hd
        | succ j =>
          simp only [List.getD_cons_succ]
          exact hashList_getD ds rest hr j (by simp at hj; omega)

/-- Replaying the steps `get_proof` collects along a path on which every
level below the root contains the walked node's `index ^ 1` sibling climbs
exactly the built levels: the running hash ends at the root node. -/
theorem fold_getProofAux (lv : List String) (i : Nat) (hi : i < lv.length)
    (hpc : pathComplete ((lv :: buildLevels H lv).dropLast) i = true) :
    List.foldl (verifyStep H) (lv.getD i "")
        (getProofAux ((lv :: buildLevels H lv).dropLast) i)
      = ((lv :: buildLevels H lv).getLast?.getD []).getD 0 "" := by
  rw [buildLevels_eq] at hpc ⊢
  by_cases h : 1 < lv.length
  · rw [if_pos h] at hpc ⊢
    rw [List.dropLast_cons₂] at hpc ⊢
    simp only [pathComplete, Bool.and_eq_true, decide_eq_true_eq] at hpc
    obtain ⟨hsib, hpc2⟩ := hpc
    simp only [getProofAux]
    rw [if_pos hsib]
    simp only [List.singleton_append, List.foldl_cons]
    have hkey : verifyStep H (lv.getD i "")
        ⟨lv.getD (i ^^^ 1) "", if i ^^^ 1 < i then "left" else "right"⟩
        = (buildLevel H lv).getD (i / 2) "" := by
      by_cases hpar : i % 2 = 0
      · obtain ⟨k, hk⟩ : ∃ k, i = 2 * k := ⟨i / 2, by omega⟩
        subst hk
        rw [two_mul_xor_one] at hsib ⊢
        rw [if_neg (by omega)]
        have hdiv : 2 * k / 2 = k := by omega
        rw [hdiv]
        simp only [verifyStep]
        rw [if_pos trivial]
        exact (buildLevel_getD_pair H lv k hsib).symm
      · obtain ⟨k, hk⟩ : ∃ k, i = 2 * k + 1 := ⟨i / 2, by omega⟩
        subst hk
        rw [two_mul_add_one_xor_one] at hsib ⊢
        rw [if_pos (by omega)]
        have hdiv : (2 * k + 1) / 2 = k := by omega
        rw [hdiv]
        simp only [verifyStep]
        rw [if_pos trivial]
        exact (buildLevel_getD_pair H lv k hi).symm
    rw [hkey, List.getLast?_cons_cons]
    exact fold_getProofAux (buildLevel H lv) (i / 2)
      (by rw [buildLevel_length]; omega) hpc2
  · rw [if_neg h] at hpc ⊢
    rw [List.dropLast_single] at hpc ⊢
    have hi0 : i = 0 := by omega
    subst hi0
    simp [getProofAux]

termination_by lv.length
decreasing_by rw [buildLevel_length]; omega

/-- With pairwise-distinct keys, the key-sorted item list is strictly sorted
by key. -/
theorem sortKeys_strict_sorted (l : List (String × String))
    (hnd : (l.map Prod.fst).Nodup) :
    (sortKeys l).Sorted (fun a b : String × String => a.1 < b.1) := by
  have hs : (sortKeys l).Sorted keyLE := List.sorted_insertionSort keyLE l
  have hnd' : ((sortKeys l).map Prod.fst).Nodup :=
    (((List.perm_insertionSort keyLE l).map Prod.fst).nodup_iff).mpr hnd
  have hne : (sortKeys l).Pairwise (fun a b : String × String => a.1 ≠ b.1) :=
    List.pairwise_map.mp hnd'
  exact (List.Pairwise.and hs hne).imp fun hab => lt_of_le_of_ne hab.1 hab.2

/-- The canonicalization `json.dumps(..., sort_keys=True)` is intended to
perform: two item lists with the same key/value pairs (distinct keys) in
different orders serialize identically. -/
theorem jsonDumps_key_order_independent (l₁ l₂ : List (String × String))
    (hperm : l₁.Perm l₂) (hnd : (l₁.map Prod.fst).Nodup) :
    jsonDumps l₁ = jsonDumps l₂ := by
  unfold jsonDumps
  suffices h : sortKeys l₁ = sortKeys l₂ by rw [h]
  have hnd₂ : (l₂.map Prod.fst).Nodup := ((hperm.map Prod.fst).nodup_iff).mp hnd
  have hperm' : (sortKeys l₁).Perm (sortKeys l₂) :=
    ((List.perm_insertionSort keyLE l₁).trans hperm).trans
      (List.perm_insertionSort keyLE l₂).symm
  haveI : IsAntisymm (String × String) (fun a b : String × String => a.1 < b.1) :=
    ⟨fun _ _ h1 h2 => absurd h1 (lt_asymm h2)⟩
  exact List.eq_of_perm_of_sorted hperm'
    (sortKeys_strict_sorted l₁ hnd) (sortKeys_strict_sorted l₂ hnd₂)

/-- The tree built over three leaf hashes, fully evaluated. -/
theorem buildTree_three (A B C : String) :
    buildTree H [A, B, C]
      = [[A, B, C], [H (A ++ B), H (C ++ C)], [H (H (A ++ B) ++ H (C ++ C))]] := by
  rw [buildTree, buildLevels_eq, if_pos (by simp),
    show buildLevel H [A, B, C] = [H (A ++ B), H (C ++ C)] from rfl,
    buildLevels_eq, if_pos (by simp),
    show buildLevel H [H (A ++ B), H (C ++ C)]
        = [H (H (A ++ B) ++ H (C ++ C))] from rfl,
    buildLevels_eq, if_neg (by simp)]

end Lemmas

section Claims

/-- Claim C2: the spec says `_hash_data` on a structured key-value mapping
returns the SHA-256 hex digest of the UTF-8 bytes of its sorted-key
serialization (identically for any key insertion order).  The code instead
passes the serialized `str` to `hashlib.sha256` without encoding it, which
raises `TypeError` for every dict — the module's own dict demo crashes.
Proved here: the dict branch always raises. -/
theorem hashData_dict_raises (H : String → String) (items : List (String × String)) :
    hashDataE H (.dict items)
      = .error "TypeError: Strings must be encoded before hashing" := rfl

/-- Claim C3: the spec says `get_root()` on a tree built from an empty
record list returns `None` without raising.  In the code `_build_tree([])`
returns `[[]]`, which is truthy, so `get_root` evaluates `[][0]` and raises
`IndexError` — the `else None` branch is unreachable. -/
theorem getRoot_empty_raises (H : String → String) :
    mkMerkleTree H [] = .ok ⟨[], [[]]⟩ ∧
    getRoot ⟨[], [[]]⟩ = .error "IndexError: list index out of range" :=
  ⟨rfl, rfl⟩

/-- Claim C5: immediately after construction, `check_integrity()` returns
`True`: every parent level of a built tree is exactly the level the builder
computes from its children, and the integrity walk recomputes precisely
that. -/
theorem checkIntegrity_after_build (H : String → String) (records : List PyData)
    (t : MerkleTree) (ht : mkMerkleTree H records = .ok t) :
    checkIntegrity H t = .ok true := by
  unfold mkMerkleTree at ht
  cases hls : hashList H records with
  | error e => rw [hls] at ht; simp at ht
  | ok lv =>
    rw [hls] at ht
    simp only [Except.ok.injEq] at ht
    subst ht
    unfold checkIntegrity
    apply runChecks_ok
    intro cp hcp
    rw [List.mem_reverse] at hcp
    rw [buildTree_adjacent H lv cp hcp]
    exact checkPairs_buildLevel H cp.1

/-- Witness for C5 at a concrete input. -/
theorem checkIntegrity_after_build_witness :
    checkIntegrity (fun s => s) ⟨["a", "b"], [["a", "b"], ["ab"]]⟩ = .ok true :=
  checkIntegrity_after_build (fun s => s) [.str "a", .str "b"] _ rfl

/-- Claim C6: `get_proof(index)` raises `IndexError` exactly when
`index < 0` or `index >= len(self.leaves)`, and returns a proof without
raising for every index in range. -/
theorem getProof_outOfRange_iff (t : MerkleTree) (i : Int) :
    ((∃ e, getProof t i = .error e) ↔ (i < 0 ∨ (t.leaves.length : Int) ≤ i)) ∧
    ((∃ p, getProof t i = .ok p) ↔ (0 ≤ i ∧ i < (t.leaves.length : Int))) := by
  unfold getProof
  by_cases h : i < 0 ∨ (t.leaves.length : Int) ≤ i
  · rw [if_pos h]
    refine ⟨⟨fun _ => h, fun _ => ⟨_, rfl⟩⟩, ?_, ?_⟩
    · rintro ⟨p, hp⟩
      exact absurd hp (by simp)
    · intro hc
      omega
  · rw [if_neg h]
    refine ⟨⟨?_, fun hc => (h hc).elim⟩, fun _ => by omega, fun _ => ⟨_, rfl⟩⟩
    rintro ⟨e, he⟩
    exact absurd he (by simp)

/-- Claim C10: a proof step whose `position` is neither `'left'` nor
`'right'` falls through `verify_proof`'s `if`/`elif` chain and leaves the
running hash unchanged; hence a proof made only of such malformed steps
verifies any record against that record's own hash. -/
theorem verifyProof_skips_malformed_steps (H : String → String) :
    (∀ (cur : String) (s : ProofStep), s.position ≠ "left" → s.position ≠ "right" →
        verifyStep H cur s = cur) ∧
    (∀ (rec : PyData) (proof : List ProofStep) (h : String),
        hashDataE H rec = .ok h →
        (∀ s ∈ proof, s.position ≠ "left" ∧ s.position ≠ "right") →
        verifyProof H rec proof h = .ok true) := by
  have hstep : ∀ (cur : String) (s : ProofStep), s.position ≠ "left" →
      s.position ≠ "right" → verifyStep H cur s = cur := by
    intro cur s h1 h2
    simp [verifyStep, h1, h2]
  refine ⟨hstep, ?_⟩
  intro rec proof h hrec hall
  have key : ∀ (ps : List ProofStep),
      (∀ s ∈ ps, s.position ≠ "left" ∧ s.position ≠ "right") →
      ∀ x : String, ps.foldl (verifyStep H) x = x := by
    intro ps
    induction ps with
    | nil => intro _ _; rfl
    | cons s rest ih =>
      intro hps x
      have hs := hps s (List.mem_cons_self _ _)
      rw [List.foldl_cons, hstep x s hs.1 hs.2]
      exact ih (fun s' hs' => hps s' (List.mem_cons_of_mem _ hs')) x
  simp only [verifyProof, hrec, key proof hall h]
  simp

/-- Witness for C10 at a concrete input. -/
theorem verifyProof_skips_malformed_steps_witness :
    verifyStep (fun s => s) "h0" ⟨"x", "up"⟩ = "h0" ∧
    verifyProof (fun s => s) (PyData.str "a") [⟨"x", "up"⟩] "a" = .ok true :=
  ⟨(verifyProof_skips_malformed_steps (fun s => s)).1 "h0" ⟨"x", "up"⟩
      (by decide) (by decide),
    (verifyProof_skips_malformed_steps (fun s => s)).2 (PyData.str "a")
      [⟨"x", "up"⟩] "a" rfl (by decide)⟩

/-- Claim C7: in a tree built from a nonempty input, every level has
`ceil(half)` the size of the level below it (`(n + 1) / 2` in ℕ), and the
final level holds exactly one node. -/
theorem level_sizes_halve (H : String → String) (records : List PyData)
    (t : MerkleTree) (ht : mkMerkleTree H records = .ok t) (hne : records ≠ []) :
    (∀ (k : Nat) (c p : List String), t.tree[k]? = some c → t.tree[k + 1]? = some p →
        p.length = (c.length + 1) / 2) ∧
    t.tree.getLast?.map List.length = some 1 := by
  unfold mkMerkleTree at ht
  cases hls : hashList H records with
  | error e => rw [hls] at ht; simp at ht
  | ok lv =>
    rw [hls] at ht
    simp only [Except.ok.injEq] at ht
    subst ht
    have hadj : ∀ (k : Nat) (c p : List String), (buildTree H lv)[k]? = some c →
        (buildTree H lv)[k + 1]? = some p → p.length = (c.length + 1) / 2 := by
      intro k c p hc hp
      have hzip : ((buildTree H lv).zip (buildTree H lv).tail)[k]? = some (c, p) := by
        rw [List.getElem?_zip_eq_some]
        exact ⟨hc, by simpa using hp⟩
      have hmem := List.getElem?_mem hzip
      have hcp := buildTree_adjacent H lv (c, p) hmem
      simp only at hcp
      rw [hcp, buildLevel_length]
    have hlv : lv ≠ [] := by
      intro hnil
      apply hne
      have hlen := hashList_length H records lv hls
      rw [hnil] at hlen
      exact List.eq_nil_of_length_eq_zero (by simp at hlen; omega)
    have hlast : (buildTree H lv).getLast?.map List.length = some 1 := by
      obtain ⟨r, hr⟩ := buildTree_last H lv hlv
      rw [hr]
      rfl
    exact ⟨hadj, hlast⟩

/-- Witness for C7 at a concrete input. -/
theorem level_sizes_halve_witness :
    (∀ (k : Nat) (c p : List String),
        (⟨["a", "b", "c"], [["a", "b", "c"], ["ab", "cc"], ["abcc"]]⟩ :
            MerkleTree).tree[k]? = some c →
        (⟨["a", "b", "c"], [["a", "b", "c"], ["ab", "cc"], ["abcc"]]⟩ :
            MerkleTree).tree[k + 1]? = some p →
        p.length = (c.length + 1) / 2) ∧
    (⟨["a", "b", "c"], [["a", "b", "c"], ["ab", "cc"], ["abcc"]]⟩ :
        MerkleTree).tree.getLast?.map List.length = some 1 :=
  level_sizes_halve (fun s => s) [.str "a", .str "b", .str "c"]
    ⟨["a", "b", "c"], [["a", "b", "c"], ["ab", "cc"], ["abcc"]]⟩ rfl (by simp)

/-- Claim C8: for a 3-record input `[a, b, c]` with leaf hashes `A`, `B`,
`C`, level 1 of the built tree is exactly
`[H(A ++ B), H(C ++ C)]` and the root is the hash of the concatenation of
those two nodes. -/
theorem three_leaf_tree_shape (H : String → String) (da db dc : PyData)
    (A B C : String) (t : MerkleTree)
    (ha : hashDataE H da = .ok A) (hb : hashDataE H db = .ok B)
    (hc : hashDataE H dc = .ok C)
    (ht : mkMerkleTree H [da, db, dc] = .ok t) :
    t.tree = [[A, B, C], [H (A ++ B), H (C ++ C)],
        [H (H (A ++ B) ++ H (C ++ C))]] ∧
    getRoot t = .ok (some (H (H (A ++ B) ++ H (C ++ C)))) := by
  have hls : hashList H [da, db, dc] = .ok [A, B, C] := by
    simp only [hashList, ha, hb, hc]
  have htr := buildTree_three H A B C
  unfold mkMerkleTree at ht
  rw [hls] at ht
  simp only [Except.ok.injEq] at ht
  subst ht
  refine ⟨htr, ?_⟩
  simp only [getRoot, htr]
  rfl

/-- Witness for C8 at a concrete input. -/
theorem three_leaf_tree_shape_witness :
    (⟨["a", "b", "c"], [["a", "b", "c"], ["ab", "cc"], ["abcc"]]⟩ :
        MerkleTree).tree = [["a", "b", "c"], ["ab", "cc"], ["abcc"]] ∧
    getRoot ⟨["a", "b", "c"], [["a", "b", "c"], ["ab", "cc"], ["abcc"]]⟩
        = .ok (some "abcc") :=
  three_leaf_tree_shape (fun s => s) (.str "a") (.str "b") (.str "c")
    "a" "b" "c" ⟨["a", "b", "c"], [["a", "b", "c"], ["ab", "cc"], ["abcc"]]⟩
    rfl rfl rfl rfl

/-- Writing back the element that was read leaves a list unchanged. -/
theorem set_getElem?_self :
    ∀ (l : List String) (n : Nat) (a : String), l[n]? = some a → l.set n a = l
  | [], n, a, h => by simp at h
  | x :: xs, 0, a, h => by
    simp at h
    simp [h]
  | x :: xs, n + 1, a, h => by
    simp only [List.getElem?_cons_succ] at h
    simp only [List.set_cons_succ]
    rw [set_getElem?_self xs n a h]

/-- After a successful `test_immutability` call on a tree in its
constructed state, the final state equals the initial state. -/
theorem testImmutability_post (H : String → String) (lv : List String) (i : Nat)
    (nv : PyData) (t' : MerkleTree) (b : Bool)
    (h : testImmutability H ⟨lv, buildTree H lv⟩ i nv = .ok (t', b)) :
    t' = ⟨lv, buildTree H lv⟩ := by
  unfold testImmutability at h
  cases hroot : getRoot ⟨lv, buildTree H lv⟩ with
  | error e => rw [hroot] at h; simp at h
  | ok oroot =>
    rw [hroot] at h
    dsimp only at h
    cases hleaf : lv[i]? with
    | none => rw [hleaf] at h; simp at h
    | some ol =>
      rw [hleaf] at h
      dsimp only at h
      cases hnv : hashDataE H nv with
      | error e => rw [hnv] at h; simp at h
      | ok nh =>
        rw [hnv] at h
        dsimp only at h
        cases hroot2 : getRoot ⟨lv.set i nh, buildTree H (lv.set i nh)⟩ with
        | error e => rw [hroot2] at h; simp at h
        | ok ur =>
          rw [hroot2] at h
          simp only [Except.ok.injEq, Prod.mk.injEq] at h
          obtain ⟨ht', _⟩ := h
          have hset : (lv.set i nh).set i ol = lv := by
            rw [List.set_set]
            exact set_getElem?_self lv i ol hleaf
          rw [← ht', hset]

/-- Claim C9: for a tree in its constructed state, whenever
`test_immutability(index, newRecord)` returns, `self.leaves` and
`self.tree` equal their values from before the call. -/
theorem testImmutability_restores_state (H : String → String)
    (records : List PyData) (t t' : MerkleTree) (i : Nat) (nv : PyData) (b : Bool)
    (ht : mkMerkleTree H records = .ok t)
    (h : testImmutability H t i nv = .ok (t', b)) :
    t'.leaves = t.leaves ∧ t'.tree = t.tree := by
  unfold mkMerkleTree at ht
  cases hls : hashList H records with
  | error e => rw [hls] at ht; simp at ht
  | ok lv =>
    rw [hls] at ht
    simp only [Except.ok.injEq] at ht
    subst ht
    rw [testImmutability_post H lv i nv t' b h]
    exact ⟨rfl, rfl⟩

/-- Witness for C9 at a concrete input. -/
theorem testImmutability_restores_state_witness :
    (⟨["a", "b"], [["a", "b"], ["ab"]]⟩ : MerkleTree).leaves
        = (⟨["a", "b"], [["a", "b"], ["ab"]]⟩ : MerkleTree).leaves ∧
    (⟨["a", "b"], [["a", "b"], ["ab"]]⟩ : MerkleTree).tree
        = (⟨["a", "b"], [["a", "b"], ["ab"]]⟩ : MerkleTree).tree :=
  testImmutability_restores_state (fun s => s) [.str "a", .str "b"]
    ⟨["a", "b"], [["a", "b"], ["ab"]]⟩ ⟨["a", "b"], [["a", "b"], ["ab"]]⟩
    0 (.str "z") false rfl rfl

/-- Claim C1, counterexample: for the three-record input
`['a', 'b', 'c']` and leaf index 2 (whose level-0 sibling index 3 is out of
range, so `get_proof` emits no step for the duplicated level although
`_build_tree` hashed the node with itself), the generated proof does not
verify against the tree's own root.  `H` is instantiated with the identity
on strings; the mismatch is structural — the replay reaches
`H(H(A ++ B) ++ C)` while the root is `H(H(A ++ B) ++ H(C ++ C))`. -/
theorem proof_roundtrip_counterexample :
    mkMerkleTree (fun s => s) [PyData.str "a", PyData.str "b", PyData.str "c"]
        = .ok ⟨["a", "b", "c"], [["a", "b", "c"], ["ab", "cc"], ["abcc"]]⟩ ∧
    getRoot ⟨["a", "b", "c"], [["a", "b", "c"], ["ab", "cc"], ["abcc"]]⟩
        = .ok (some "abcc") ∧
    getProof ⟨["a", "b", "c"], [["a", "b", "c"], ["ab", "cc"], ["abcc"]]⟩ 2
        = .ok [⟨"ab", "left"⟩] ∧
    verifyProof (fun s => s) (PyData.str "c") [⟨"ab", "left"⟩] "abcc"
        = .ok false :=
  ⟨rfl, rfl, rfl, rfl⟩

/-- The round-trip failure at the unpaired leaf is intrinsic, not an
artifact of instantiating the digest: for every *injective* hash function —
which SHA-256 is assumed to be in practice — the proof `get_proof(2)`
produces for the three-record input fails verification against the tree's
own root. -/
theorem roundtrip_fails_for_injective_hash (H : String → String)
    (hinj : Function.Injective H) (t : MerkleTree) (p : List ProofStep) (r : String)
    (ht : mkMerkleTree H [PyData.str "a", PyData.str "b", PyData.str "c"] = .ok t)
    (hp : getProof t 2 = .ok p) (hr : getRoot t = .ok (some r)) :
    verifyProof H (PyData.str "c") p r = .ok false := by
  have hls : hashList H [PyData.str "a", PyData.str "b", PyData.str "c"]
      = .ok [H "a", H "b", H "c"] := rfl
  unfold mkMerkleTree at ht
  rw [hls] at ht
  simp only [Except.ok.injEq] at ht
  subst ht
  rw [show getProof ⟨[H "a", H "b", H "c"], buildTree H [H "a", H "b", H "c"]⟩ 2
      = .ok [⟨H (H "a" ++ H "b"), "left"⟩] from by
    simp only [getProof]
    rw [if_neg (by norm_num), buildTree_three]
    rfl] at hp
  simp only [Except.ok.injEq] at hp
  subst hp
  rw [show getRoot ⟨[H "a", H "b", H "c"], buildTree H [H "a", H "b", H "c"]⟩
      = .ok (some (H (H (H "a" ++ H "b") ++ H (H "c" ++ H "c")))) from by
    simp only [getRoot, buildTree_three]
    rfl] at hr
  simp only [Except.ok.injEq, Option.some.injEq] at hr
  subst hr
  simp only [verifyProof]
  rw [show hashDataE H (PyData.str "c") = .ok (H "c") from rfl]
  dsimp only
  rw [show ([(⟨H (H "a" ++ H "b"), "left"⟩ : ProofStep)].foldl (verifyStep H) (H "c"))
      = H (H (H "a" ++ H "b") ++ H "c") from rfl]
  have hne : H (H (H "a" ++ H "b") ++ H "c")
      ≠ H (H (H "a" ++ H "b") ++ H (H "c" ++ H "c")) := by
    intro heq
    have h1 := hinj heq
    have h2 := congrArg String.data h1
    rw [String.data_append, String.data_append] at h2
    have h3 := List.append_cancel_left h2
    have h4 : H "c" = H (H "c" ++ H "c") := String.ext h3
    have h5 := hinj h4
    have h6 := congrArg String.length h5
    rw [String.length_append] at h6
    rw [show ("c" : String).length = 1 from rfl] at h6
    omega
  simp [beq_eq_false_iff_ne, hne]

/-- Claim C1 (amended): for every constructed tree, every valid leaf index
whose `index ^ 1` sibling exists in every level below the root along the
walked path (`pathComplete`), the proof returned by `get_proof` verifies the
leaf record against the tree root. -/
theorem proof_roundtrip_amended (H : String → String) (records : List PyData)
    (t : MerkleTree) (i : Int) (p : List ProofStep) (r : String)
    (ht : mkMerkleTree H records = .ok t)
    (hp : getProof t i = .ok p)
    (hpc : pathComplete t.tree.dropLast i.toNat = true)
    (hr : getRoot t = .ok (some r)) :
    verifyProof H (records.getD i.toNat (PyData.str "")) p r = .ok true := by
  unfold mkMerkleTree at ht
  cases hls : hashList H records with
  | error e => rw [hls] at ht; simp at ht
  | ok lv =>
    rw [hls] at ht
    simp only [Except.ok.injEq] at ht
    subst ht
    simp only [getProof] at hp
    by_cases hb : i < 0 ∨ (lv.length : Int) ≤ i
    · rw [if_pos hb] at hp
      exact absurd hp (by simp)
    · rw [if_neg hb] at hp
      simp only [Except.ok.injEq] at hp
      subst hp
      push_neg at hb
      obtain ⟨hb0, hblt⟩ := hb
      have hiN : i.toNat < lv.length := by omega
      simp only [getRoot] at hr
      cases hlast : (buildTree H lv).getLast? with
      | none => rw [hlast] at hr; simp at hr
      | some L =>
        rw [hlast] at hr
        dsimp only at hr
        cases hhead : L.head? with
        | none => rw [hhead] at hr; simp at hr
        | some r0 =>
          rw [hhead] at hr
          simp only [Except.ok.injEq, Option.some.injEq] at hr
          subst hr
          have hroot_val : ((lv :: buildLevels H lv).getLast?.getD []).getD 0 "" = r0 := by
            have h1 : (lv :: buildLevels H lv).getLast? = some L := by
              simpa only [buildTree] using hlast
            rw [h1]
            cases L with
            | nil => simp at hhead
            | cons a L2 =>
              simp only [List.head?_cons, Option.some.injEq] at hhead
              simp [hhead]
          have hrec : hashDataE H (records.getD i.toNat (PyData.str ""))
              = .ok (lv.getD i.toNat "") := by
            have hlen := hashList_length H records lv hls
            exact hashList_getD H records lv hls i.toNat (by omega)
          have hfold := fold_getProofAux H lv i.toNat hiN
            (by simpa only [buildTree] using hpc)
          simp only [verifyProof, hrec]
          simp only [buildTree]
          rw [hfold, hroot_val]
          simp

/-- Witness for the amended C1 at a concrete input: index 1 of the
three-leaf tree, whose path meets a distinct sibling at both levels. -/
theorem proof_roundtrip_amended_witness :
    verifyProof (fun s => s) (PyData.str "b") [⟨"a", "left"⟩, ⟨"cc", "right"⟩]
        "abcc" = .ok true :=
  proof_roundtrip_amended (fun s => s) [.str "a", .str "b", .str "c"]
    ⟨["a", "b", "c"], [["a", "b", "c"], ["ab", "cc"], ["abcc"]]⟩ 1
    [⟨"a", "left"⟩, ⟨"cc", "right"⟩] "abcc" rfl rfl rfl rfl

/-- Claim C4, counterexample: in the three-leaf tree, leaf index 2 has no
distinct sibling; the spec says `find_sibling(2)` returns the leaf's own
hash (here `"c"` with `H` the identity), but the code returns `None`. -/
theorem findSibling_unpaired_counterexample :
    mkMerkleTree (fun s => s) [PyData.str "a", PyData.str "b", PyData.str "c"]
        = .ok ⟨["a", "b", "c"], [["a", "b", "c"], ["ab", "cc"], ["abcc"]]⟩ ∧
    (⟨["a", "b", "c"], [["a", "b", "c"], ["ab", "cc"], ["abcc"]]⟩ :
        MerkleTree).leaves.getD 2 "" = "c" ∧
    findSibling ⟨["a", "b", "c"], [["a", "b", "c"], ["ab", "cc"], ["abcc"]]⟩ 2
        = .ok none ∧
    (Except.ok (some "c") : Except String (Option String)) ≠ .ok none :=
  ⟨rfl, rfl, rfl, by simp⟩

/-- Claim C4 (amended): `find_sibling(index)` raises `IndexError` exactly
when `index` is outside `[0, leafCount)`, and returns `None` (not the
leaf's own hash) for a valid index whose `index ^ 1` sibling position is
outside the leaf level. -/
theorem findSibling_amended (t : MerkleTree) (i : Int) :
    ((∃ e, findSibling t i = .error e) ↔ (i < 0 ∨ (t.leaves.length : Int) ≤ i)) ∧
    (0 ≤ i → i < (t.leaves.length : Int) → t.leaves.length ≤ i.toNat ^^^ 1 →
      findSibling t i = .ok none) := by
  unfold findSibling
  by_cases h : i < 0 ∨ (t.leaves.length : Int) ≤ i
  · rw [if_pos h]
    refine ⟨⟨fun _ => h, fun _ => ⟨_, rfl⟩⟩, ?_⟩
    intro h0 hlt _
    exact absurd h (by omega)
  · rw [if_neg h]
    constructor
    · constructor
      · rintro ⟨e, he⟩
        split at he <;> simp at he
      · intro hc
        exact (h hc).elim
    · intro _ _ hsib
      rw [if_neg (by omega)]

/-- Witness for the amended C4 at concrete inputs: index 5 is out of range
and raises; index 2 has sibling position 3, outside the 3-leaf level, and
yields `None`. -/
theorem findSibling_amended_witness :
    (∃ e, findSibling
        (⟨["a", "b", "c"], [["a", "b", "c"], ["ab", "cc"], ["abcc"]]⟩ :
          MerkleTree) 5 = .error e) ∧
    findSibling
        (⟨["a", "b", "c"], [["a", "b", "c"], ["ab", "cc"], ["abcc"]]⟩ :
          MerkleTree) 2 = .ok none :=
  ⟨(findSibling_amended
      ⟨["a", "b", "c"], [["a", "b", "c"], ["ab", "cc"], ["abcc"]]⟩ 5).1.mpr
      (by decide),
    (findSibling_amended
      ⟨["a", "b", "c"], [["a", "b", "c"], ["ab", "cc"], ["abcc"]]⟩ 2).2
      (by decide) (by decide) (by decide)⟩

end Claims

end MerklePy
